import Mathlib

/-!
Verification of the two visualisation components.

Shallow embedding of `src/components/interaction_excercise.js` (namespace
`InteractionExercise`) and `src/components/stripplot.js` (namespace
`Stripplot`).  The d3 primitives the scripts call (`interrupt`,
`transition`, `scaleOrdinal`, `scaleLinear`, `extent`, `nice`, `group`) are
embedded by what they do to the values the scripts read back.  In the
strip plot the numbers are JavaScript numbers: finite doubles, infinities
and `NaN`, with the rounding of the host as a parameter.
-/

namespace InteractionExercise

/-- Line 2: `const width = 500`. -/
def width : ℚ := 500

/-- Line 3: `const height = 100`. -/
def height : ℚ := 100

/-- Line 4: `const r = 50`. -/
def r : ℚ := 50

/-- The two values `current_color` ever holds: `"red"` and `"blue"`. -/
inductive Color where
  | red
  | blue
  deriving DecidableEq, Repr

/-- The values written to the circle's `fill` style: `"white"`, or the
string held by `current_color`. -/
inductive Fill where
  | white
  | color (c : Color)
  deriving DecidableEq, Repr

/-- Easing curves named by the script (`d3.easeElastic`). -/
inductive Ease where
  | elastic
  deriving DecidableEq, Repr

/-- One scheduled d3 transition on the circle: the time in milliseconds
from its creation to its start (0 for a transition made by
`selection.transition()`, which starts on the next frame; for one made by
`transition.transition()` d3 sets the start time to the end of the parent,
its delay plus its duration later), its `.duration(...)` in milliseconds,
its `.ease(...)`, the target of its `.attr("cx", ...)` (the value is read
when the transition is created), and whether `.on("end", replay)` was
registered on it. -/
structure Transition where
  startsAfter : Nat
  duration : Nat
  ease : Ease
  cx : ℚ
  onEndReplay : Bool
  deriving DecidableEq, Repr

/-- The module-level variables (lines 34-36), what the circle displays
(`cx` attribute and `fill` style), and the transitions scheduled on the
circle element, in the order of their creation. -/
structure State where
  current_color : Color
  blue_x : ℚ
  red_x : ℚ
  cx : ℚ
  fill : Fill
  schedule : List Transition
  deriving DecidableEq, Repr

/-- State after the module has loaded: lines 23-36.  The circle is created
with `fill` white and `cx = r`; `current_color = "red"`, `blue_x = r`,
`red_x = width - r`; nothing is scheduled. -/
def init : State :=
  { current_color := Color.red
    blue_x := r
    red_x := width - r
    cx := r
    fill := Fill.white
    schedule := [] }

/-- The d3 call `selection.interrupt()`: the running transition is
interrupted and every pending one is cancelled; the attributes stay as the
last frame left them and no `end` listener is called. -/
def interrupt (s : State) : State :=
  { s with schedule := [] }

/-- Lines 38-46, `toggle_color`. -/
def toggle_color (s : State) : State :=
  let s1 := interrupt s
  let c := if s1.current_color = Color.red then Color.blue else Color.red
  { s1 with current_color := c, fill := Fill.color c }

/-- Lines 48-60, `replay`.  The fill is set to white and two chained
transitions are created on the circle: the first starts on the next frame,
the second when the first ends.  The call itself cancels nothing. -/
def replay (s : State) : State :=
  { s with
    fill := Fill.white
    schedule := s.schedule ++
      [ { startsAfter := 0, duration := 2000, ease := Ease.elastic, cx := s.red_x,
          onEndReplay := false },
        { startsAfter := 2000, duration := 2000, ease := Ease.elastic, cx := s.blue_x,
          onEndReplay := true } ] }

/-- Lines 62-70, `dragged`, with `x` the `event.x` of the drag event. -/
def dragged (x : ℚ) (s : State) : State :=
  let s1 := interrupt s
  let s2 := { s1 with cx := x, fill := Fill.color s1.current_color }
  if s2.current_color = Color.blue then { s2 with blue_x := x } else { s2 with red_x := x }

/-- A transition made by `selection.transition()` starts, the one at
position `k` of the schedule: it interrupts the running transition of the
circle and cancels the pending ones created before it, none of which has
its `end` listener called.  A transition made by `transition.transition()`
does not start this way: it starts when its parent has ended, as the first
of the schedule. -/
def transitionStart (k : Nat) (s : State) : State :=
  match s.schedule[k]? with
  | some t => if t.startsAfter = 0 then { s with schedule := s.schedule.drop k } else s
  | none => s

/-- An animation frame of the first transition of the schedule: the `cx`
attribute is set to the interpolated value `v` of that frame.  Without a
scheduled transition nothing happens. -/
def frame (v : ℚ) (s : State) : State :=
  match s.schedule with
  | [] => s
  | _ :: _ => { s with cx := v }

/-- The first transition of the schedule reaches its end: its last frame
writes the target `cx`, its `end` listener (`replay`, when registered) is
called, and the transition leaves the schedule. -/
def transitionEnd (s : State) : State :=
  match s.schedule with
  | [] => s
  | t :: rest =>
    let s1 := { s with cx := t.cx, schedule := rest }
    if t.onEndReplay then replay s1 else s1

/-- What can happen to the demo: a click on the circle, a drag movement
with its `event.x`, a click on the button, and the timer events of the
transitions: a start, a frame, an end. -/
inductive Event where
  | toggle_color
  | dragged (x : ℚ)
  | replay
  | transitionStart (k : Nat)
  | frame (v : ℚ)
  | transitionEnd
  deriving DecidableEq, Repr

/-- One event handled to completion. -/
def step (s : State) : Event → State
  | Event.toggle_color => toggle_color s
  | Event.dragged x => dragged x s
  | Event.replay => replay s
  | Event.transitionStart k => transitionStart k s
  | Event.frame v => frame v s
  | Event.transitionEnd => transitionEnd s

/-- The events handled one after the other. -/
def run (s : State) (evs : List Event) : State :=
  evs.foldl step s

/-- The position remembered for a colour: `red_x` or `blue_x`. -/
def remembered (c : Color) (s : State) : ℚ :=
  match c with
  | Color.red => s.red_x
  | Color.blue => s.blue_x

/-- The other colour. -/
def Color.other : Color → Color
  | Color.red => Color.blue
  | Color.blue => Color.red

/-- An event of the user on the circle: a click or a drag movement. -/
def Event.isToggleOrDrag : Event → Bool
  | Event.toggle_color => true
  | Event.dragged _ => true
  | _ => false

/-- A timer event of a transition. -/
def Event.isTimer : Event → Bool
  | Event.transitionStart _ => true
  | Event.frame _ => true
  | Event.transitionEnd => true
  | _ => false

/-- The invariant as the specification words it: the position remembered
for `current_color` is the rendered `cx`, and the one remembered for the
other colour is not. -/
def ActiveInvariant (s : State) : Prop :=
  remembered s.current_color s = s.cx ∧ remembered s.current_color.other s ≠ s.cx

/-- The end position written when event `e` is handled in state `s`: the
target of the first transition of the schedule when `e` is its end. -/
def endedAt (s : State) : Event → Option ℚ
  | Event.transitionEnd => s.schedule.head?.map fun t => t.cx
  | _ => none

/-- The end positions of the transitions that run to completion while
the events `evs` are handled from state `s`, in order. -/
def endTrace (s : State) : List Event → List ℚ
  | [] => []
  | e :: evs => (endedAt s e).toList ++ endTrace (step s e) evs

/-- The sequence `a, b, a, b, ...` of length `n`. -/
def alternating : Nat → ℚ → ℚ → List ℚ
  | 0, _, _ => []
  | n + 1, a, b => a :: alternating n b a

/-- The value of `current_color` when event number `k` of `evs` is handled,
counted from the clicks before it: red at load, flipped by every click on
the circle. -/
def colorBefore (evs : List Event) (k : Nat) : Color :=
  if (evs.take k).count Event.toggle_color % 2 = 0 then Color.red else Color.blue

/-- The `event.x` of the most recent `dragged` event of `evs` that occurred
while `current_color` was `c`, when there is one. -/
def lastDragWhile (c : Color) (evs : List Event) : Option ℚ :=
  ((List.range evs.length).filterMap fun k =>
    match evs[k]? with
    | some (Event.dragged p) => if colorBefore evs k = c then some p else none
    | _ => none).getLast?

/-- The position remembered for a colour at load: `r` for blue and
`width - r` for red. -/
def defaultPosition : Color → ℚ
  | Color.red => width - r
  | Color.blue => r

end InteractionExercise

namespace Stripplot

/-- One parsed row of the data file, with the two fields the plot reads.
The file is loaded with `csv()` without a type conversion (line 6), so both
fields are strings. -/
structure Row where
  species : String
  sepalWidth : String
  deriving DecidableEq, Repr

/-- Line 9: `const width = 928`. -/
def width : ℚ := 928

/-- Line 10: `const height = 600`. -/
def height : ℚ := 600

/-- The shape of the `margin` object. -/
structure Margin where
  top : ℚ
  bottom : ℚ
  right : ℚ
  left : ℚ

/-- Lines 11-16: `const margin = {top: 25, bottom: 35, right: 20, left: 40}`. -/
def margin : Margin :=
  { top := 25, bottom := 35, right := 20, left := 40 }

/-- Insertion of a key into an insertion-ordered map of d3 (`InternMap`):
a key already present keeps its place, a new key goes last. -/
def insertKey (keys : List String) (k : String) : List String :=
  if k ∈ keys then keys else keys ++ [k]

/-- The keys of `d3.group(data, (d) => d.species)`, in insertion order:
every species once, ordered by first occurrence in the data. -/
def groupKeys (data : List Row) : List String :=
  (data.map fun d => d.species).foldl insertKey []

/-- The lookup `index.get(d)` of an ordinal scale: the position of `d` in
the domain. -/
def indexOfKey (d : String) : List String → Option Nat
  | [] => none
  | k :: ks => if k = d then some 0 else (indexOfKey d ks).map (· + 1)

/-- An ordinal scale of d3: its domain (distinct keys) and its range. -/
structure ScaleOrdinal (α : Type) where
  domain : List String
  range : List α

/-- The constructor `d3.scaleOrdinal(domain, range)`: the domain keeps the
first occurrence of every key. -/
def scaleOrdinal {α : Type} (domain : List String) (range : List α) : ScaleOrdinal α :=
  { domain := domain.foldl insertKey [], range := range }

/-- A call `scale(d)` of an ordinal scale: a key of the domain at index `i`
gives `range[i % range.length]`; an unknown key is first appended to the
domain (the scale has no `unknown` value set).  Returns the value
(`none` for `undefined`) and the scale after the call. -/
def ScaleOrdinal.call {α : Type} (s : ScaleOrdinal α) (d : String) :
    Option α × ScaleOrdinal α :=
  match indexOfKey d s.domain with
  | some i => (s.range[i % s.range.length]?, s)
  | none =>
    (s.range[s.domain.length % s.range.length]?, { s with domain := s.domain ++ [d] })

/-- The value of a call `scale(d)`. -/
def ScaleOrdinal.apply {α : Type} (s : ScaleOrdinal α) (d : String) : Option α :=
  (s.call d).1

/-- Lines 20-24: the positional scale `x`.  The three positions are the
integers 267, 494 and 721, computed without rounding error in doubles. -/
def x (data : List Row) : ScaleOrdinal ℚ :=
  scaleOrdinal (groupKeys data)
    [ margin.left + 0.25 * (width - margin.right),
      margin.left + 0.5 * (width - margin.right),
      margin.left + 0.75 * (width - margin.right) ]

/-- The palette `d3.schemeCategory10`. -/
def schemeCategory10 : List String :=
  ["#1f77b4", "#ff7f0e", "#2ca02c", "#d62728", "#9467bd",
   "#8c564b", "#e377c2", "#7f7f7f", "#bcbd22", "#17becf"]

/-- Lines 36-39: the colour scale `color`. -/
def color (data : List Row) : ScaleOrdinal String :=
  scaleOrdinal (groupKeys data) schemeCategory10

/-- A JavaScript number: a finite double, given by the rational it
denotes (the two zeros are not told apart), an infinity, or `NaN`. -/
inductive Num where
  | fin (q : ℚ)
  | posInf
  | negInf
  | nan
  deriving DecidableEq, Repr

/-- What the script takes from the JavaScript host and from d3's tick
arithmetic, taken as given: the rounding of an exact result to a double
(an infinity on overflow), the conversion of a string to a number (`+s`),
and the d3 function `tickIncrement(start, stop, count)`, which works with
`Math.log10` and `Math.pow`. -/
structure Host where
  round : ℚ → Num
  toNumber : String → Num
  tickIncrement : Num → Num → Num → Num

/-- Unary minus of JavaScript. -/
def Num.neg : Num → Num
  | Num.fin q => Num.fin (-q)
  | Num.posInf => Num.negInf
  | Num.negInf => Num.posInf
  | Num.nan => Num.nan

/-- The operator `+` of JavaScript on numbers. -/
def Num.add (h : Host) : Num → Num → Num
  | Num.fin a, Num.fin b => h.round (a + b)
  | Num.nan, _ => Num.nan
  | _, Num.nan => Num.nan
  | Num.posInf, Num.negInf => Num.nan
  | Num.negInf, Num.posInf => Num.nan
  | Num.posInf, _ => Num.posInf
  | Num.negInf, _ => Num.negInf
  | _, Num.posInf => Num.posInf
  | _, Num.negInf => Num.negInf

/-- The operator `-` of JavaScript on numbers. -/
def Num.sub (h : Host) : Num → Num → Num
  | Num.fin a, Num.fin b => h.round (a - b)
  | a, b => Num.add h a b.neg

/-- The infinity with the sign of `q`, for `q` not zero. -/
def Num.infOfSign (q : ℚ) : Num :=
  if 0 < q then Num.posInf else Num.negInf

/-- The operator `*` of JavaScript on numbers. -/
def Num.mul (h : Host) : Num → Num → Num
  | Num.fin a, Num.fin b => h.round (a * b)
  | Num.nan, _ => Num.nan
  | _, Num.nan => Num.nan
  | Num.fin a, Num.posInf => if a = 0 then Num.nan else Num.infOfSign a
  | Num.fin a, Num.negInf => if a = 0 then Num.nan else Num.infOfSign (-a)
  | Num.posInf, Num.fin b => if b = 0 then Num.nan else Num.infOfSign b
  | Num.negInf, Num.fin b => if b = 0 then Num.nan else Num.infOfSign (-b)
  | Num.posInf, Num.posInf => Num.posInf
  | Num.negInf, Num.negInf => Num.posInf
  | Num.posInf, Num.negInf => Num.negInf
  | Num.negInf, Num.posInf => Num.negInf

/-- The operator `/` of JavaScript on numbers; a zero divisor counts as
the positive zero. -/
def Num.div (h : Host) : Num → Num → Num
  | Num.fin a, Num.fin b =>
    if b = 0 then (if a = 0 then Num.nan else Num.infOfSign a) else h.round (a / b)
  | Num.nan, _ => Num.nan
  | _, Num.nan => Num.nan
  | Num.fin _, _ => Num.fin 0
  | Num.posInf, Num.fin b => if 0 ≤ b then Num.posInf else Num.negInf
  | Num.negInf, Num.fin b => if 0 ≤ b then Num.negInf else Num.posInf
  | _, _ => Num.nan

/-- The function `Math.floor`. -/
def Num.floor : Num → Num
  | Num.fin q => Num.fin (⌊q⌋ : ℤ)
  | v => v

/-- The function `Math.ceil`. -/
def Num.ceil : Num → Num
  | Num.fin q => Num.fin (⌈q⌉ : ℤ)
  | v => v

/-- The operator `<` of JavaScript on numbers. -/
def Num.lt : Num → Num → Bool
  | Num.fin a, Num.fin b => decide (a < b)
  | Num.nan, _ => false
  | _, Num.nan => false
  | Num.negInf, Num.negInf => false
  | Num.negInf, _ => true
  | _, Num.negInf => false
  | Num.posInf, _ => false
  | _, Num.posInf => true

/-- The truth value of a number in a condition: zero and `NaN` are
false. -/
def Num.truthy : Num → Bool
  | Num.fin q => decide (q ≠ 0)
  | Num.nan => false
  | _ => true

/-- The code units of a string in UTF-16, the form in which JavaScript
compares strings. -/
def codeUnits (s : String) : List Nat :=
  s.data.flatMap fun c =>
    if c.toNat < 65536 then [c.toNat]
    else [55296 + (c.toNat - 65536) / 1024, 56320 + (c.toNat - 65536) % 1024]

/-- The lexicographic order on lists of code units. -/
def ltUnits : List Nat → List Nat → Bool
  | [], [] => false
  | [], _ :: _ => true
  | _ :: _, [] => false
  | a :: as, b :: bs => decide (a < b) || (decide (a = b) && ltUnits as bs)

/-- The operator `<` of JavaScript on two strings. -/
def strLt (a b : String) : Bool :=
  ltUnits (codeUnits a) (codeUnits b)

/-- The d3 function `extent` on the strings of a column: the minimum and
the maximum in the order of `<` on strings, found in one pass; `none`
stands for `[undefined, undefined]` on no values. -/
def extent (vs : List String) : Option (String × String) :=
  vs.foldl
    (fun acc v =>
      match acc with
      | none => some (v, v)
      | some (mn, mx) => some (if strLt v mn then v else mn, if strLt mx v then v else mx))
    none

/-- The loop of `scale.nice()` of a linear scale, `maxIter` iterations
left, with `count = 10`: the bounds are extended to multiples of the tick
step until the step repeats (`prestep` is `none` for `undefined`).  `none`
as result stands for leaving the loop without a new domain (a step that is
zero or `NaN`, or no iteration left). -/
def niceLoop (h : Host) : Nat → Num → Num → Option Num → Option (Num × Num)
  | 0, _, _, _ => none
  | maxIter + 1, start, stop, prestep =>
    let step := h.tickIncrement start stop (Num.fin 10)
    if step ≠ Num.nan ∧ some step = prestep then some (start, stop)
    else if Num.lt (Num.fin 0) step then
      niceLoop h maxIter (Num.mul h (Num.div h start step).floor step)
        (Num.mul h (Num.div h stop step).ceil step) (some step)
    else if Num.lt step (Num.fin 0) then
      niceLoop h maxIter (Num.div h (Num.mul h start step).ceil step)
        (Num.div h (Num.mul h stop step).floor step) (some step)
    else none

/-- The method `nice()` of a linear scale on a domain of two numbers: a
descending domain is handled with its ends exchanged; the domain stays as
it is when the loop gives no new one. -/
def nice (h : Host) (d : Num × Num) : Num × Num :=
  if Num.lt d.2 d.1 then
    match niceLoop h 10 d.2 d.1 none with
    | some (start, stop) => (stop, start)
    | none => d
  else
    match niceLoop h 10 d.1 d.2 none with
    | some (start, stop) => (start, stop)
    | none => d

/-- The d3 helper `normalize(a, b)` of a continuous scale: the position of
`v` between `a` and `b`; when `b - a` is zero the constant one half, when
it is `NaN` the constant `NaN`. -/
def normalize (h : Host) (a b v : Num) : Num :=
  if (Num.sub h b a).truthy then Num.div h (Num.sub h v a) (Num.sub h b a)
  else if Num.sub h b a = Num.nan then Num.nan
  else Num.fin 0.5

/-- The d3 function `interpolateNumber(a, b)` at `t`:
`a * (1 - t) + b * t`. -/
def interpolateNumber (h : Host) (a b t : Num) : Num :=
  Num.add h (Num.mul h a (Num.sub h (Num.fin 1) t)) (Num.mul h b t)

/-- The map of a linear scale with a domain and a range of two numbers
each, not clamped (`bimap` of d3). -/
def scaleLinearCall (h : Host) (domain range : Num × Num) (v : Num) : Num :=
  if Num.lt domain.2 domain.1 then
    interpolateNumber h range.2 range.1 (normalize h domain.2 domain.1 v)
  else
    interpolateNumber h range.1 range.2 (normalize h domain.1 domain.2 v)

/-- The domain of the scale `y`, lines 29-32: the extent of the
`sepalWidth` strings, each end converted to a number by `domain(...)`
(`undefined` gives `NaN`), made nice. -/
def yDomain (h : Host) (data : List Row) : Num × Num :=
  nice h
    (match extent (data.map fun d => d.sepalWidth) with
    | some (mn, mx) => (h.toNumber mn, h.toNumber mx)
    | none => (Num.nan, Num.nan))

/-- The range of the scale `y`, line 33:
`[height - margin.bottom, margin.top]`. -/
def yRange : Num × Num :=
  (Num.fin (height - margin.bottom), Num.fin margin.top)

/-- Lines 29-33: the vertical scale `y` called on a number; `none` stands
for `undefined`, the value of the scale on `NaN`. -/
def yNum (h : Host) (data : List Row) (v : Num) : Option Num :=
  if v = Num.nan then none else some (scaleLinearCall h (yDomain h data) yRange v)

/-- Lines 29-33: the vertical scale `y` called on a field of a row, a
string, which the scale converts to a number. -/
def y (h : Host) (data : List Row) (s : String) : Option Num :=
  yNum h data (h.toNumber s)

/-- The attributes of one `rect` mark that the script computes; for the
fill `none` stands for `undefined`. -/
structure Mark where
  width : ℚ
  height : ℚ
  x : Num
  y : Num
  fill : Option String
  opacity : ℚ
  deriving DecidableEq, Repr

/-- Lines 50-60: one `rect` per row of the data, in the order of the rows;
`jitter i` is the value of the call `jitter()` made for row number `i`
(the attribute function runs once per mark, in order).  Arithmetic on
`undefined` gives `NaN`. -/
def marks (h : Host) (data : List Row) (jitter : Nat → ℚ) : List Mark :=
  data.mapIdx fun i d =>
    { width := 2
      height := 15
      x :=
        match (x data).apply d.species with
        | some band => Num.sub h (Num.add h (Num.fin band) (Num.fin (jitter i))) (Num.fin 1)
        | none => Num.nan
      y :=
        match y h data d.sepalWidth with
        | some v => Num.sub h v (Num.fin 7.5)
        | none => Num.nan
      fill := (color data).apply d.species
      opacity := 0.5 }

/-- Slot number `k` (from 0) of the three horizontal slots:
`margin.left + (k + 1)/4 * (width - margin.right)`. -/
def slot (k : Nat) : ℚ :=
  margin.left + (k + 1 : ℚ) / 4 * (width - margin.right)

/-- The number of distinct species that occur in the data before the first
occurrence of `sp`: `sp` is the distinct species number `firstSeenRank`,
counted from 0. -/
def firstSeenRank (data : List Row) (sp : String) : Nat :=
  (((data.map fun d => d.species).takeWhile fun k => k ≠ sp).dedup).length

/-- The number of distinct species of the data. -/
def distinctSpecies (data : List Row) : Nat :=
  ((data.map fun d => d.species).dedup).length

/-- The horizontal offset of mark number `i` from the band position of its
row, the `x` attribute minus `x(species)`, is a finite number in
`[lo, hi)`. -/
def OffsetWithin (h : Host) (lo hi : ℚ) (data : List Row) (jitter : Nat → ℚ) (i : Nat) :
    Prop :=
  ∃ (d : Row) (m : Mark) (band xattr : ℚ),
    data[i]? = some d ∧ (marks h data jitter)[i]? = some m ∧
      (x data).apply d.species = some band ∧ m.x = Num.fin xattr ∧
      lo ≤ xattr - band ∧ xattr - band < hi

/-- The claim on the ends of the domain of `y` as the specification words
it: the domain is `[lo, hi]`, `y` maps `lo` to 565 and `hi` to 25. -/
def EndsAtRange (h : Host) (data : List Row) : Prop :=
  ∃ lo hi : ℚ, yDomain h data = (Num.fin lo, Num.fin hi) ∧
    yNum h data (Num.fin lo) = some (Num.fin 565) ∧
    yNum h data (Num.fin hi) = some (Num.fin 25)

/-- The rounding of doubles, as far as the proofs use it: a half of an
integer of magnitude up to `2 ^ 53` is a double and rounds to itself, and
rounding is monotone on the reals of magnitude up to `2 ^ 53`, with finite
results. -/
def RoundsLikeDouble (round : ℚ → Num) : Prop :=
  (∀ n : ℤ, |n| ≤ 2 ^ 53 → round ((n : ℚ) / 2) = Num.fin ((n : ℚ) / 2)) ∧
    ∀ a b : ℚ, |a| ≤ 2 ^ 53 → |b| ≤ 2 ^ 53 → a ≤ b →
      ∃ ra rb : ℚ, round a = Num.fin ra ∧ round b = Num.fin rb ∧ ra ≤ rb

/-- The values of `tickIncrement` on a domain without extension, as d3
computes them: `-Infinity` on two equal finite bounds (the logarithm of
the step 0 is `-Infinity`), and `NaN` on bounds that are `NaN`. -/
def TickIncrementDegenerate (tick : Num → Num → Num → Num) : Prop :=
  (∀ v : ℚ, tick (Num.fin v) (Num.fin v) (Num.fin 10) = Num.negInf) ∧
    tick Num.nan Num.nan (Num.fin 10) = Num.nan

/-- The tick step in exact arithmetic: the step nearest to
`(stop - start) / count` among 1, 2, 5 times a power of ten, given as that
step when it is at least 1 and as minus its inverse otherwise; the
comparisons of the error with the square roots of 50, 10 and 2 are made on
squares. -/
def exactTickIncrement : Num → Num → Num → Num
  | Num.fin start, Num.fin stop, Num.fin count =>
    let step := (stop - start) / max 0 count
    if step = 0 then Num.negInf
    else if step < 0 then Num.nan
    else
      let power : ℤ := Int.log 10 step
      let error : ℚ := step / (10 : ℚ) ^ power
      let factor : ℚ :=
        if 50 ≤ error ^ 2 then 10 else if 10 ≤ error ^ 2 then 5
        else if 2 ≤ error ^ 2 then 2 else 1
      if power < 0 then Num.fin (-((10 : ℚ) ^ (-power) / factor))
      else Num.fin ((10 : ℚ) ^ power * factor)
  | _, _, _ => Num.nan

/-- The value of a list of decimal digits, read after the value `acc`. -/
def digitsValue : List Char → Nat → Option Nat
  | [], acc => some acc
  | c :: cs, acc =>
    if 48 ≤ c.toNat ∧ c.toNat ≤ 57 then digitsValue cs (10 * acc + (c.toNat - 48)) else none

/-- The number denoted by a non-empty string of decimal digits; `NaN` for
every other string. -/
def digitsToNumber (s : String) : Num :=
  match s.data with
  | [] => Num.nan
  | c :: cs =>
    match digitsValue (c :: cs) 0 with
    | some n => Num.fin n
    | none => Num.nan

/-- A host that computes without rounding error, reads strings of digits,
and takes the tick step in exact arithmetic. -/
def exactHost : Host :=
  { round := Num.fin, toNumber := digitsToNumber, tickIncrement := exactTickIncrement }

end Stripplot

namespace InteractionExercise

theorem toggle_color_cx (s : State) : (toggle_color s).cx = s.cx := rfl

theorem iterate_toggle_color_cx (n : Nat) (s : State) : (toggle_color^[n] s).cx = s.cx := by
  induction n generalizing s with
  | zero => rfl
  | succ n ih => rw [Function.iterate_succ_apply, ih, toggle_color_cx]

/-- C1: any number of consecutive `toggle_color` calls leaves the displayed
`cx` as it was, and two consecutive calls give `current_color` its value
from before. -/
theorem toggle_color_keeps_cx_and_is_involutive (s : State) (n : Nat) :
    (toggle_color^[n] s).cx = s.cx ∧
      (toggle_color (toggle_color s)).current_color = s.current_color := by
  refine ⟨iterate_toggle_color_cx n s, ?_⟩
  cases h : s.current_color <;> simp [toggle_color, interrupt, h]

/-- C2: after `dragged` with `event.x = p` the position remembered for the
current colour is `p`, the position remembered for the other colour is
what it was, and `current_color` is the same. -/
theorem dragged_updates_remembered (s : State) (p : ℚ) :
    remembered s.current_color (dragged p s) = p ∧
      remembered s.current_color.other (dragged p s) = remembered s.current_color.other s ∧
      (dragged p s).current_color = s.current_color := by
  cases h : s.current_color <;> simp [dragged, interrupt, remembered, Color.other, h]

theorem run_append (s : State) (evs : List Event) (e : Event) :
    run s (evs ++ [e]) = step (run s evs) e := by
  simp [run, List.foldl_append]

theorem run_cons (s : State) (e : Event) (evs : List Event) :
    run s (e :: evs) = run (step s e) evs := rfl

theorem cx_remembered_step (s : State) (e : Event) (he : e.isToggleOrDrag = true)
    (h : s.cx = s.red_x ∨ s.cx = s.blue_x) :
    (step s e).cx = (step s e).red_x ∨ (step s e).cx = (step s e).blue_x := by
  cases e with
  | toggle_color => simpa [step, toggle_color, interrupt] using h
  | dragged x =>
    cases hc : s.current_color <;> simp [step, dragged, interrupt, hc]
  | replay => simp [Event.isToggleOrDrag] at he
  | transitionStart k => simp [Event.isToggleOrDrag] at he
  | frame v => simp [Event.isToggleOrDrag] at he
  | transitionEnd => simp [Event.isToggleOrDrag] at he

theorem cx_remembered_run (evs : List Event) (s : State)
    (hevs : ∀ e ∈ evs, e.isToggleOrDrag = true)
    (h : s.cx = s.red_x ∨ s.cx = s.blue_x) :
    (run s evs).cx = (run s evs).red_x ∨ (run s evs).cx = (run s evs).blue_x := by
  induction evs generalizing s with
  | nil => exact h
  | cons e evs ih =>
    rw [run_cons]
    exact ih _ (fun e' he' => hevs e' (List.mem_cons_of_mem _ he'))
      (cx_remembered_step s e (hevs e (List.mem_cons_self _ _)) h)

/-- C3, counterexample: after a drag to 200 and a click the circle is blue
and still at 200, the position remembered for red; and in the state at
load the circle is at 50, the position remembered for blue, while
`current_color` is red. -/
theorem active_invariant_fails :
    ¬ ActiveInvariant (run init [Event.dragged 200, Event.toggle_color]) ∧
      ¬ ActiveInvariant (run init []) := by
  constructor <;>
    simp [ActiveInvariant, run, step, init, dragged, toggle_color, interrupt, remembered,
      Color.other, width, r]

/-- C3, amended: in every state reached from the state at load by clicks
and drags the rendered `cx` is one of the two remembered positions, and
right after a `dragged` event it is the one remembered for
`current_color`. -/
theorem rendered_cx_is_remembered (evs : List Event)
    (hevs : ∀ e ∈ evs, e.isToggleOrDrag = true) :
    ((run init evs).cx = (run init evs).red_x ∨ (run init evs).cx = (run init evs).blue_x) ∧
      ∀ p : ℚ,
        remembered (run init (evs ++ [Event.dragged p])).current_color
            (run init (evs ++ [Event.dragged p])) =
          (run init (evs ++ [Event.dragged p])).cx := by
  refine ⟨cx_remembered_run evs init hevs (Or.inr rfl), fun p => ?_⟩
  rw [run_append]
  cases hc : (run init evs).current_color <;>
    simp [step, dragged, interrupt, remembered, hc]

theorem rendered_cx_is_remembered_witness :
    (∀ e ∈ [Event.dragged 200, Event.toggle_color], e.isToggleOrDrag = true) ∧
      ((run init [Event.dragged 200, Event.toggle_color]).cx =
          (run init [Event.dragged 200, Event.toggle_color]).red_x ∨
        (run init [Event.dragged 200, Event.toggle_color]).cx =
          (run init [Event.dragged 200, Event.toggle_color]).blue_x) :=
  ⟨by decide, (rendered_cx_is_remembered [Event.dragged 200, Event.toggle_color] (by decide)).1⟩

theorem timer_step_idle (s : State) (h : s.schedule = []) (e : Event)
    (he : e.isTimer = true) : step s e = s := by
  cases e with
  | transitionStart k => simp [step, transitionStart, h]
  | frame v => simp [step, frame, h]
  | transitionEnd => simp [step, transitionEnd, h]
  | toggle_color => simp [Event.isTimer] at he
  | dragged x => simp [Event.isTimer] at he
  | replay => simp [Event.isTimer] at he

theorem timer_run_idle (tevs : List Event) (s : State) (h : s.schedule = [])
    (ht : ∀ e ∈ tevs, e.isTimer = true) : run s tevs = s := by
  induction tevs with
  | nil => rfl
  | cons e tevs ih =>
    rw [run_cons, timer_step_idle s h e (ht e (List.mem_cons_self _ _))]
    exact ih (fun e' he' => ht e' (List.mem_cons_of_mem _ he'))

theorem toggle_color_schedule (s : State) : (toggle_color s).schedule = [] := rfl

theorem dragged_schedule (p : ℚ) (s : State) : (dragged p s).schedule = [] := by
  cases hc : s.current_color <;> simp [dragged, interrupt, hc]

/-- C4: when a transition is in flight, `toggle_color` leaves `cx` as it
is displayed at the click and shows the flipped colour, `dragged` with
`event.x = p` shows `cx = p` in `current_color`, in both cases nothing
stays scheduled, and no later timer event changes the state, so no replay
target reaches `cx`. -/
theorem interaction_interrupts_replay (s : State) (p : ℚ) (_hflight : s.schedule ≠ [])
    (tevs : List Event) (ht : ∀ e ∈ tevs, e.isTimer = true) :
    ((toggle_color s).cx = s.cx ∧ (toggle_color s).fill = Fill.color s.current_color.other ∧
        (toggle_color s).schedule = [] ∧ run (toggle_color s) tevs = toggle_color s) ∧
      ((dragged p s).cx = p ∧ (dragged p s).fill = Fill.color s.current_color ∧
        (dragged p s).schedule = [] ∧ run (dragged p s) tevs = dragged p s) := by
  refine ⟨⟨rfl, ?_, rfl, timer_run_idle tevs _ (toggle_color_schedule s) ht⟩,
    ⟨?_, ?_, dragged_schedule p s, timer_run_idle tevs _ (dragged_schedule p s) ht⟩⟩
  · cases hc : s.current_color <;> simp [toggle_color, interrupt, Color.other, hc]
  · cases hc : s.current_color <;> simp [dragged, interrupt, hc]
  · cases hc : s.current_color <;> simp [dragged, interrupt, hc]

theorem interaction_interrupts_replay_witness :
    (replay init).schedule ≠ [] ∧
      (∀ e ∈ [Event.transitionEnd, Event.frame 7, Event.transitionEnd], e.isTimer = true) ∧
      run (toggle_color (replay init)) [Event.transitionEnd, Event.frame 7, Event.transitionEnd] =
        toggle_color (replay init) ∧
      (dragged 120 (replay init)).cx = 120 :=
  ⟨by simp [replay], by decide,
    (interaction_interrupts_replay (replay init) 120 (by simp [replay])
      [Event.transitionEnd, Event.frame 7, Event.transitionEnd] (by decide)).1.2.2.2,
    (interaction_interrupts_replay (replay init) 120 (by simp [replay])
      [Event.transitionEnd, Event.frame 7, Event.transitionEnd] (by decide)).2.1⟩

theorem endTrace_cycle (evs : List Event) (hevs : ∀ e ∈ evs, e.isTimer = true) (R B : ℚ) :
    (∀ s : State, s.red_x = R → s.blue_x = B →
        s.schedule =
          [ { startsAfter := 0, duration := 2000, ease := Ease.elastic, cx := R,
              onEndReplay := false },
            { startsAfter := 2000, duration := 2000, ease := Ease.elastic, cx := B,
              onEndReplay := true } ] →
        endTrace s evs = alternating (evs.count Event.transitionEnd) R B) ∧
      (∀ s : State, s.red_x = R → s.blue_x = B →
        s.schedule =
          [ { startsAfter := 2000, duration := 2000, ease := Ease.elastic, cx := B,
              onEndReplay := true } ] →
        endTrace s evs = alternating (evs.count Event.transitionEnd) B R) := by
  induction evs with
  | nil => exact ⟨fun _ _ _ _ => rfl, fun _ _ _ _ => rfl⟩
  | cons e evs ih =>
    have ih2 := ih (fun e' he' => hevs e' (List.mem_cons_of_mem _ he'))
    have he := hevs e (List.mem_cons_self _ _)
    cases e with
    | toggle_color => simp [Event.isTimer] at he
    | dragged x => simp [Event.isTimer] at he
    | replay => simp [Event.isTimer] at he
    | transitionStart k =>
      have hc : (Event.transitionStart k :: evs).count Event.transitionEnd =
          evs.count Event.transitionEnd := by
        rw [List.count_cons_of_ne (by simp)]
      refine ⟨fun s hR hB hs => ?_, fun s hR hB hs => ?_⟩
      · have hstep : step s (Event.transitionStart k) = s := by
          rcases k with _ | _ | k
          · cases s
            simp_all [step, transitionStart]
          · simp [step, transitionStart, hs]
          · simp [step, transitionStart, hs]
        simp only [endTrace, endedAt, Option.toList, List.nil_append, hstep, hc]
        exact ih2.1 s hR hB hs
      · have hstep : step s (Event.transitionStart k) = s := by
          rcases k with _ | k <;> simp [step, transitionStart, hs]
        simp only [endTrace, endedAt, Option.toList, List.nil_append, hstep, hc]
        exact ih2.2 s hR hB hs
    | frame v =>
      have hc : (Event.frame v :: evs).count Event.transitionEnd =
          evs.count Event.transitionEnd := by
        rw [List.count_cons_of_ne (by simp)]
      refine ⟨fun s hR hB hs => ?_, fun s hR hB hs => ?_⟩
      · simp only [endTrace, endedAt, Option.toList, List.nil_append, hc]
        exact ih2.1 _ (by simp [step, frame, hs, hR]) (by simp [step, frame, hs, hB])
          (by simp [step, frame, hs])
      · simp only [endTrace, endedAt, Option.toList, List.nil_append, hc]
        exact ih2.2 _ (by simp [step, frame, hs, hR]) (by simp [step, frame, hs, hB])
          (by simp [step, frame, hs])
    | transitionEnd =>
      have hc : (Event.transitionEnd :: evs).count Event.transitionEnd =
          evs.count Event.transitionEnd + 1 := List.count_cons_self _ _
      refine ⟨fun s hR hB hs => ?_, fun s hR hB hs => ?_⟩
      · simp only [endTrace, endedAt, hs, List.head?_cons, Option.map_some', Option.toList,
          List.singleton_append, hc, alternating]
        congr 1
        exact ih2.2 _ (by simp [step, transitionEnd, hs, hR])
          (by simp [step, transitionEnd, hs, hB]) (by simp [step, transitionEnd, hs])
      · simp only [endTrace, endedAt, hs, List.head?_cons, Option.map_some', Option.toList,
          List.singleton_append, hc, alternating]
        congr 1
        exact ih2.1 _ (by simp [step, transitionEnd, hs, replay, hR])
          (by simp [step, transitionEnd, hs, replay, hB])
          (by simp [step, transitionEnd, hs, replay, hR, hB])

/-- C5, counterexample: after `replay` in the state at load the first leg
ends at 450; a click on the button then adds a new chain, whose first leg
starts and cancels the pending second leg; the next two ends are at 450
and 50.  No `toggle_color` or `dragged` event occurs, and the end
positions are 450, 450, 50, not 450, 50, 450. -/
theorem replay_ends_repeat_after_second_click :
    (∀ e ∈ [Event.transitionEnd, Event.replay, Event.transitionStart 1, Event.transitionEnd,
        Event.transitionEnd], e.isToggleOrDrag = false) ∧
      endTrace (replay init)
          [Event.transitionEnd, Event.replay, Event.transitionStart 1, Event.transitionEnd,
            Event.transitionEnd] = [450, 450, 50] ∧
      endTrace (replay init)
          [Event.transitionEnd, Event.replay, Event.transitionStart 1, Event.transitionEnd,
            Event.transitionEnd] ≠ alternating 3 init.red_x init.blue_x := by
  have h : endTrace (replay init)
      [Event.transitionEnd, Event.replay, Event.transitionStart 1, Event.transitionEnd,
        Event.transitionEnd] = [450, 450, 50] := by
    simp [endTrace, endedAt, step, transitionEnd, transitionStart, replay, init, width, r]
    norm_num
  refine ⟨by decide, h, ?_⟩
  rw [h]
  simp [alternating, init, width, r]

/-- C5, amended: `replay` shows white and adds exactly two transitions to
the schedule, in order: the first of 2000 ms ending at `cx = red_x`, the
second, chained to it, of 2000 ms ending at `cx = blue_x` with `replay` as
its `end` listener; when nothing was scheduled at the call and only timer
events of the transitions follow (no `toggle_color`, no `dragged`, no click
on the button), the end positions of the completed transitions are
`red_x, blue_x, red_x, blue_x, ...`, one per completion. -/
theorem replay_cycle (s : State) (evs : List Event) :
    (replay s).fill = Fill.white ∧
      (replay s).schedule = s.schedule ++
        [ { startsAfter := 0, duration := 2000, ease := Ease.elastic, cx := s.red_x,
            onEndReplay := false },
          { startsAfter := 2000, duration := 2000, ease := Ease.elastic, cx := s.blue_x,
            onEndReplay := true } ] ∧
      (s.schedule = [] → (∀ e ∈ evs, e.isTimer = true) →
        endTrace (replay s) evs =
          alternating (evs.count Event.transitionEnd) s.red_x s.blue_x) :=
  ⟨rfl, rfl, fun hidle hevs =>
    (endTrace_cycle evs hevs s.red_x s.blue_x).1 (replay s) rfl rfl (by simp [replay, hidle])⟩

theorem replay_cycle_witness :
    init.schedule = [] ∧
      (∀ e ∈ [Event.transitionStart 0, Event.frame 120, Event.transitionEnd, Event.frame 70,
        Event.transitionEnd, Event.transitionEnd], e.isTimer = true) ∧
      endTrace (replay init)
          [Event.transitionStart 0, Event.frame 120, Event.transitionEnd, Event.frame 70,
            Event.transitionEnd, Event.transitionEnd] =
        alternating
          ([Event.transitionStart 0, Event.frame 120, Event.transitionEnd, Event.frame 70,
            Event.transitionEnd, Event.transitionEnd].count Event.transitionEnd)
          init.red_x init.blue_x :=
  ⟨rfl, by decide,
    (replay_cycle init
      [Event.transitionStart 0, Event.frame 120, Event.transitionEnd, Event.frame 70,
        Event.transitionEnd, Event.transitionEnd]).2.2 rfl (by decide)⟩

theorem step_red_x_blue_x_of_not_dragged (s : State) (e : Event)
    (he : ∀ p, e ≠ Event.dragged p) :
    (step s e).red_x = s.red_x ∧ (step s e).blue_x = s.blue_x := by
  cases e with
  | toggle_color => exact ⟨rfl, rfl⟩
  | dragged x => exact absurd rfl (he x)
  | replay => exact ⟨rfl, rfl⟩
  | transitionStart k =>
    cases hk : s.schedule[k]? with
    | none => simp [step, transitionStart, hk]
    | some t => by_cases ht : t.startsAfter = 0 <;> simp [step, transitionStart, hk, ht]
  | frame v =>
    cases hs : s.schedule <;> simp [step, frame, hs]
  | transitionEnd =>
    cases hs : s.schedule with
    | nil => simp [step, transitionEnd, hs]
    | cons t rest =>
      cases ht : t.onEndReplay <;> simp [step, transitionEnd, hs, ht, replay]

theorem step_current_color (s : State) (e : Event) :
    (step s e).current_color =
      if e = Event.toggle_color then s.current_color.other else s.current_color := by
  cases e with
  | toggle_color =>
    cases hc : s.current_color <;> simp [step, toggle_color, interrupt, Color.other, hc]
  | dragged x =>
    cases hc : s.current_color <;> simp [step, dragged, interrupt, hc]
  | replay => simp [step, replay]
  | transitionStart k =>
    cases hk : s.schedule[k]? with
    | none => simp [step, transitionStart, hk]
    | some t => by_cases ht : t.startsAfter = 0 <;> simp [step, transitionStart, hk, ht]
  | frame v =>
    cases hs : s.schedule <;> simp [step, frame, hs]
  | transitionEnd =>
    cases hs : s.schedule with
    | nil => simp [step, transitionEnd, hs]
    | cons t rest =>
      cases ht : t.onEndReplay <;> simp [step, transitionEnd, hs, ht, replay]

theorem colorBefore_snoc_of_lt (evs : List Event) (e : Event) (k : Nat) (hk : k ≤ evs.length) :
    colorBefore (evs ++ [e]) k = colorBefore evs k := by
  unfold colorBefore
  rw [List.take_append_of_le_length hk]

theorem colorBefore_succ (evs : List Event) (e : Event) :
    colorBefore (evs ++ [e]) (evs.length + 1) =
      if e = Event.toggle_color then (colorBefore evs evs.length).other
      else colorBefore evs evs.length := by
  unfold colorBefore
  have h1 : (evs ++ [e]).take (evs.length + 1) = evs ++ [e] := by
    apply List.take_of_length_le
    simp
  rw [h1, List.take_length, List.count_append]
  by_cases he : e = Event.toggle_color
  · subst he
    simp only [List.count_singleton_self, if_true]
    rcases Nat.mod_two_eq_zero_or_one (List.count Event.toggle_color evs) with h | h
    · have : (List.count Event.toggle_color evs + 1) % 2 = 1 := by omega
      simp [h, this, Color.other]
    · have : (List.count Event.toggle_color evs + 1) % 2 = 0 := by omega
      simp [h, this, Color.other]
  · have hc : List.count Event.toggle_color [e] = 0 := by
      rw [List.count_eq_zero]
      simpa using fun h => he h.symm
    simp [hc, he]

theorem run_current_color (evs : List Event) :
    (run init evs).current_color = colorBefore evs evs.length := by
  induction evs using List.reverseRecOn with
  | nil => rfl
  | append_singleton evs e ih =>
    rw [run_append, step_current_color, ih, List.length_append, List.length_singleton,
      colorBefore_succ]

theorem lastDragWhile_snoc (c : Color) (evs : List Event) (e : Event) :
    lastDragWhile c (evs ++ [e]) =
      match e with
      | Event.dragged p =>
        if colorBefore evs evs.length = c then some p else lastDragWhile c evs
      | _ => lastDragWhile c evs := by
  unfold lastDragWhile
  rw [List.length_append, List.length_singleton, List.range_succ, List.filterMap_append]
  have hpre : (List.range evs.length).filterMap (fun k =>
        match (evs ++ [e])[k]? with
        | some (Event.dragged p) => if colorBefore (evs ++ [e]) k = c then some p else none
        | _ => none) =
      (List.range evs.length).filterMap (fun k =>
        match evs[k]? with
        | some (Event.dragged p) => if colorBefore evs k = c then some p else none
        | _ => none) := by
    apply List.filterMap_congr
    intro k hk
    have hk2 : k < evs.length := List.mem_range.mp hk
    rw [List.getElem?_append_left hk2, colorBefore_snoc_of_lt evs e k (le_of_lt hk2)]
  rw [hpre]
  have hlast : (evs ++ [e])[evs.length]? = some e := by simp
  have hcol : colorBefore (evs ++ [e]) evs.length = colorBefore evs evs.length :=
    colorBefore_snoc_of_lt evs e evs.length (le_refl _)
  cases e with
  | dragged p =>
    by_cases hc : colorBefore evs evs.length = c
    · simp [hlast, hcol, hc]
    · simp [hlast, hcol, hc]
  | toggle_color => simp [hlast]
  | replay => simp [hlast]
  | transitionStart k => simp [hlast]
  | frame v => simp [hlast]
  | transitionEnd => simp [hlast]

theorem remembered_run (c : Color) (evs : List Event) :
    remembered c (run init evs) = (lastDragWhile c evs).getD (defaultPosition c) := by
  induction evs using List.reverseRecOn with
  | nil => cases c <;> rfl
  | append_singleton evs e ih =>
    rw [run_append, lastDragWhile_snoc]
    cases e with
    | dragged p =>
      have hcur := run_current_color evs
      by_cases hc : colorBefore evs evs.length = c
      · simp only [if_pos hc]
        rw [hc] at hcur
        cases c <;> simp [step, dragged, interrupt, remembered, hcur]
      · simp only [if_neg hc]
        rw [← ih]
        cases c <;> cases hcc : (run init evs).current_color <;>
          simp_all [step, dragged, interrupt, remembered]
    | toggle_color => rw [← ih]; cases c <;> rfl
    | replay => rw [← ih]; cases c <;> rfl
    | transitionStart k =>
      have h := step_red_x_blue_x_of_not_dragged (run init evs) (Event.transitionStart k)
        (fun p hp => by cases hp)
      rw [← ih]; cases c <;> simp [remembered, h.1, h.2]
    | frame v =>
      have h := step_red_x_blue_x_of_not_dragged (run init evs) (Event.frame v)
        (fun p hp => by cases hp)
      rw [← ih]; cases c <;> simp [remembered, h.1, h.2]
    | transitionEnd =>
      have h := step_red_x_blue_x_of_not_dragged (run init evs) Event.transitionEnd
        (fun p hp => by cases hp)
      rw [← ih]; cases c <;> simp [remembered, h.1, h.2]

/-- C10: after any sequence of events handled from the state at load, the
position remembered for colour `c` is the `event.x` of the most recent
`dragged` event that occurred while `current_color` was `c`, or the
default of `c` (450 for red, 50 for blue) when there is none; and
`toggle_color` and `replay` leave `red_x` and `blue_x` as they are. -/
theorem remembered_is_last_drag (evs : List Event) (c : Color) (s : State) :
    remembered c (run init evs) = (lastDragWhile c evs).getD (defaultPosition c) ∧
      defaultPosition Color.red = 450 ∧ defaultPosition Color.blue = 50 ∧
      (toggle_color s).red_x = s.red_x ∧ (toggle_color s).blue_x = s.blue_x ∧
      (replay s).red_x = s.red_x ∧ (replay s).blue_x = s.blue_x := by
  refine ⟨remembered_run c evs, ?_, ?_, rfl, rfl, rfl, rfl⟩
  · norm_num [defaultPosition, width, r]
  · norm_num [defaultPosition, r]

end InteractionExercise

namespace Stripplot

theorem foldl_insertKey_extends (l acc : List String) :
    ∃ t, l.foldl insertKey acc = acc ++ t := by
  induction l generalizing acc with
  | nil => exact ⟨[], by simp⟩
  | cons k l ih =>
    obtain ⟨t, ht⟩ := ih (insertKey acc k)
    rw [List.foldl_cons, ht]
    unfold insertKey
    split
    · exact ⟨t, rfl⟩
    · exact ⟨[k] ++ t, by simp⟩

theorem mem_foldl_insertKey (l acc : List String) (k : String) :
    k ∈ l.foldl insertKey acc ↔ k ∈ acc ∨ k ∈ l := by
  induction l generalizing acc with
  | nil => simp
  | cons a l ih =>
    rw [List.foldl_cons, ih]
    unfold insertKey
    by_cases ha : a ∈ acc
    · rw [if_pos ha]
      constructor
      · rintro (h | h)
        · exact Or.inl h
        · exact Or.inr (List.mem_cons_of_mem _ h)
      · rintro (h | h)
        · exact Or.inl h
        · rcases List.mem_cons.mp h with h | h
          · exact Or.inl (h ▸ ha)
          · exact Or.inr h
    · rw [if_neg ha]
      simp only [List.mem_append, List.mem_singleton, List.mem_cons]
      tauto

theorem nodup_foldl_insertKey (l acc : List String) (h : acc.Nodup) :
    (l.foldl insertKey acc).Nodup := by
  induction l generalizing acc with
  | nil => exact h
  | cons a l ih =>
    rw [List.foldl_cons]
    apply ih
    unfold insertKey
    by_cases ha : a ∈ acc
    · rw [if_pos ha]; exact h
    · rw [if_neg ha]
      exact List.Nodup.append h (List.nodup_singleton a) (by simpa using ha)

theorem foldl_insertKey_of_nodup (l acc : List String) (h : (acc ++ l).Nodup) :
    l.foldl insertKey acc = acc ++ l := by
  induction l generalizing acc with
  | nil => simp
  | cons a l ih =>
    have ha : a ∉ acc := by
      intro hmem
      have := List.nodup_append.mp h
      exact this.2.2 hmem (List.mem_cons_self _ _)
    rw [List.foldl_cons]
    have hi : insertKey acc a = acc ++ [a] := by simp [insertKey, ha]
    rw [hi, ih _ (by simpa using h)]
    simp

theorem nodup_groupKeys (data : List Row) : (groupKeys data).Nodup :=
  nodup_foldl_insertKey _ [] List.nodup_nil

theorem mem_groupKeys (data : List Row) (k : String) :
    k ∈ groupKeys data ↔ k ∈ data.map fun d => d.species := by
  unfold groupKeys
  rw [mem_foldl_insertKey]
  simp

theorem scaleOrdinal_domain_groupKeys {α : Type} (data : List Row) (range : List α) :
    (scaleOrdinal (groupKeys data) range).domain = groupKeys data := by
  unfold scaleOrdinal
  simpa using foldl_insertKey_of_nodup (groupKeys data) [] (by simpa using nodup_groupKeys data)

theorem indexOfKey_append_of_mem (d : String) (l l2 : List String) (h : d ∈ l) :
    indexOfKey d (l ++ l2) = indexOfKey d l := by
  induction l with
  | nil => simp at h
  | cons k l ih =>
    rw [List.cons_append]
    unfold indexOfKey
    by_cases hk : k = d
    · simp [hk]
    · rw [if_neg hk, if_neg hk, ih]
      rcases List.mem_cons.mp h with h | h
      · exact absurd h.symm hk
      · exact h

theorem indexOfKey_append_self (d : String) (l : List String) (h : d ∉ l) :
    indexOfKey d (l ++ [d]) = some l.length := by
  induction l with
  | nil => simp [indexOfKey]
  | cons k l ih =>
    have hk : k ≠ d := fun e => h (e ▸ List.mem_cons_self _ _)
    have hl : d ∉ l := fun e => h (List.mem_cons_of_mem _ e)
    simp [indexOfKey, hk, ih hl]

theorem indexOfKey_getElem? (d : String) (l : List String) (i : Nat)
    (h : indexOfKey d l = some i) : l[i]? = some d := by
  induction l generalizing i with
  | nil => simp [indexOfKey] at h
  | cons k l ih =>
    unfold indexOfKey at h
    by_cases hk : k = d
    · rw [if_pos hk] at h
      cases h
      simp [hk]
    · rw [if_neg hk] at h
      cases hj : indexOfKey d l with
      | none => simp [hj] at h
      | some j =>
        simp [hj] at h
        subst h
        simpa using ih j hj

theorem split_at_first (sp : String) (l : List String) (h : sp ∈ l) :
    ∃ l2, l = (l.takeWhile fun k => k ≠ sp) ++ sp :: l2 ∧
      sp ∉ l.takeWhile fun k => k ≠ sp := by
  induction l with
  | nil => simp at h
  | cons k l ih =>
    by_cases hk : k = sp
    · exact ⟨l, by simp [List.takeWhile, hk], by simp [List.takeWhile, hk]⟩
    · have hl : sp ∈ l := by
        rcases List.mem_cons.mp h with h | h
        · exact absurd h.symm hk
        · exact h
      obtain ⟨l2, h1, h2⟩ := ih hl
      refine ⟨l2, ?_, ?_⟩
      · simp only [List.takeWhile, ne_eq, hk, not_false_eq_true, decide_True, List.cons_append]
        congr 1
      · simp only [List.takeWhile, ne_eq, hk, not_false_eq_true, decide_True, List.mem_cons]
        rintro (e | e)
        · exact hk e.symm
        · exact h2 e

theorem length_foldl_insertKey_nil (l : List String) :
    (l.foldl insertKey []).length = l.dedup.length := by
  rw [← List.card_toFinset, ← List.toFinset_card_of_nodup (nodup_foldl_insertKey l [] List.nodup_nil)]
  congr 1
  ext k
  simp [mem_foldl_insertKey]

theorem indexOfKey_groupKeys (data : List Row) (sp : String)
    (h : sp ∈ data.map fun d => d.species) :
    indexOfKey sp (groupKeys data) = some (firstSeenRank data sp) := by
  obtain ⟨l2, h1, h2⟩ := split_at_first sp _ h
  unfold groupKeys firstSeenRank
  rw [← length_foldl_insertKey_nil]
  generalize (data.map fun d => d.species) = l at *
  generalize hl1 : (l.takeWhile fun k => k ≠ sp) = l1 at *
  have hfold : l.foldl insertKey [] = (sp :: l2).foldl insertKey (l1.foldl insertKey []) := by
    conv_lhs => rw [h1]
    rw [List.foldl_append]
  have hnot : sp ∉ l1.foldl insertKey [] := by
    rw [mem_foldl_insertKey]
    simpa using h2
  rw [hfold, List.foldl_cons]
  have hi : insertKey (l1.foldl insertKey []) sp = l1.foldl insertKey [] ++ [sp] := by
    simp [insertKey, hnot]
  rw [hi]
  obtain ⟨t, ht⟩ := foldl_insertKey_extends l2 (l1.foldl insertKey [] ++ [sp])
  rw [ht, indexOfKey_append_of_mem _ _ _ (by simp), indexOfKey_append_self _ _ hnot]

theorem x_range : (x []).range = [slot 0, slot 1, slot 2] ∧
    [slot 0, slot 1, slot 2] = [267, 494, 721] := by
  constructor <;> norm_num [x, scaleOrdinal, slot, margin, width]

theorem x_range_getElem? (data : List Row) (i : Nat) :
    (x data).range[i % (x data).range.length]? = some (slot (i % 3)) := by
  have h3 : i % 3 < 3 := Nat.mod_lt _ (by norm_num)
  have hr : (x data).range = [slot 0, slot 1, slot 2] := by
    norm_num [x, scaleOrdinal, slot, margin, width]
  rw [hr]
  simp only [List.length_cons, List.length_nil]
  interval_cases h : i % 3 <;> simp

theorem slot_injective (a b : Nat) (h : slot a = slot b) : a = b := by
  unfold slot at h
  have h2 : ((a : ℚ) + 1) / 4 * (width - margin.right) = ((b : ℚ) + 1) / 4 * (width - margin.right) :=
    add_left_cancel h
  have h3 : (width - margin.right) ≠ 0 := by norm_num [width, margin]
  have h4 : ((a : ℚ) + 1) / 4 = ((b : ℚ) + 1) / 4 := mul_right_cancel₀ h3 h2
  have h5 : (a : ℚ) = b := by linarith
  exact_mod_cast h5

theorem x_call_of_mem (data : List Row) (sp : String)
    (h : sp ∈ data.map fun d => d.species) :
    (x data).call sp = (some (slot (firstSeenRank data sp % 3)), x data) := by
  have hd : (x data).domain = groupKeys data := scaleOrdinal_domain_groupKeys data _
  unfold ScaleOrdinal.call
  rw [hd, indexOfKey_groupKeys data sp h]
  simp only [x_range_getElem?]

theorem x_apply_of_mem (data : List Row) (sp : String)
    (h : sp ∈ data.map fun d => d.species) :
    (x data).apply sp = some (slot (firstSeenRank data sp % 3)) := by
  unfold ScaleOrdinal.apply
  rw [x_call_of_mem data sp h]

theorem firstSeenRank_lt (data : List Row) (sp : String)
    (h : sp ∈ data.map fun d => d.species) :
    firstSeenRank data sp < distinctSpecies data := by
  have h1 := indexOfKey_getElem? sp _ _ (indexOfKey_groupKeys data sp h)
  have h2 : firstSeenRank data sp < (groupKeys data).length := by
    by_contra hc
    rw [List.getElem?_eq_none (not_lt.mp hc)] at h1
    cases h1
  have h3 : (groupKeys data).length = distinctSpecies data := length_foldl_insertKey_nil _
  omega

theorem firstSeenRank_injective (data : List Row) (sp1 sp2 : String)
    (h1 : sp1 ∈ data.map fun d => d.species) (h2 : sp2 ∈ data.map fun d => d.species)
    (h : firstSeenRank data sp1 = firstSeenRank data sp2) : sp1 = sp2 := by
  have e1 := indexOfKey_getElem? sp1 _ _ (indexOfKey_groupKeys data sp1 h1)
  have e2 := indexOfKey_getElem? sp2 _ _ (indexOfKey_groupKeys data sp2 h2)
  rw [h, e2] at e1
  exact (Option.some.inj e1).symm

/-- C8: the scale `x` has the three slots 267, 494 and 721 as its range,
`margin.left + k/4 * (width - margin.right)` for `k = 1, 2, 3`; the species
of a row of the data, being the distinct species number `i` in order of
first occurrence, is sent to slot number `i mod 3`, and the call leaves
the scale as it is; rows of the same species share the slot, and with at
most three distinct species in the data rows of different species have
different slots. -/
theorem x_sends_species_to_slots (data : List Row) (row : Row) (hrow : row ∈ data) :
    (x data).range = [slot 0, slot 1, slot 2] ∧
      [slot 0, slot 1, slot 2] = [267, 494, 721] ∧
      (x data).call row.species =
        (some (slot (firstSeenRank data row.species % 3)), x data) ∧
      (∀ row2 ∈ data, row2.species = row.species →
        (x data).apply row2.species = (x data).apply row.species) ∧
      (distinctSpecies data ≤ 3 → ∀ row2 ∈ data, row2.species ≠ row.species →
        (x data).apply row2.species ≠ (x data).apply row.species) := by
  have hmem : ∀ r ∈ data, r.species ∈ data.map fun d => d.species :=
    fun r hr => List.mem_map.mpr ⟨r, hr, rfl⟩
  refine ⟨?_, x_range.2, x_call_of_mem data _ (hmem row hrow), ?_, ?_⟩
  · norm_num [x, scaleOrdinal, slot, margin, width]
  · intro row2 _ h
    rw [h]
  · intro h3 row2 hrow2 hne heq
    rw [x_apply_of_mem data _ (hmem row hrow), x_apply_of_mem data _ (hmem row2 hrow2)] at heq
    have hs := slot_injective _ _ (Option.some.inj heq)
    have l1 := firstSeenRank_lt data _ (hmem row hrow)
    have l2 := firstSeenRank_lt data _ (hmem row2 hrow2)
    rw [Nat.mod_eq_of_lt (by omega), Nat.mod_eq_of_lt (by omega)] at hs
    exact hne (firstSeenRank_injective data _ _ (hmem row2 hrow2) (hmem row hrow) hs)

theorem x_sends_species_to_slots_witness :
    (⟨"versicolor", "2"⟩ : Row) ∈ [(⟨"setosa", "3"⟩ : Row), ⟨"versicolor", "2"⟩] ∧
      (x [⟨"setosa", "3"⟩, ⟨"versicolor", "2"⟩]).call "versicolor" =
        (some (slot (firstSeenRank [⟨"setosa", "3"⟩, ⟨"versicolor", "2"⟩] "versicolor" % 3)),
          x [⟨"setosa", "3"⟩, ⟨"versicolor", "2"⟩]) :=
  ⟨by simp, (x_sends_species_to_slots [⟨"setosa", "3"⟩, ⟨"versicolor", "2"⟩] ⟨"versicolor", "2"⟩
    (by simp)).2.2.1⟩
theorem marks_getElem? (h : Host) (data : List Row) (jitter : Nat → ℚ) (i : Nat) (d : Row)
    (hd : data[i]? = some d) :
    (marks h data jitter)[i]? = some
      { width := 2
        height := 15
        x :=
          match (x data).apply d.species with
          | some band => Num.sub h (Num.add h (Num.fin band) (Num.fin (jitter i))) (Num.fin 1)
          | none => Num.nan
        y :=
          match y h data d.sepalWidth with
          | some v => Num.sub h v (Num.fin 7.5)
          | none => Num.nan
        fill := (color data).apply d.species
        opacity := 0.5 } := by
  unfold marks
  rw [List.getElem?_mapIdx, hd]
  rfl

theorem mem_of_getElem? (data : List Row) (i : Nat) (d : Row) (h : data[i]? = some d) :
    d.species ∈ data.map fun r => r.species :=
  List.mem_map.mpr ⟨d, List.getElem?_mem h, rfl⟩

theorem round_int (round : ℚ → Num) (hr : RoundsLikeDouble round) (n : ℤ)
    (hn : |n| ≤ 2 ^ 52) : round n = Num.fin n := by
  have h2 : |2 * n| ≤ 2 ^ 53 := by
    rw [abs_mul]
    norm_num
    linarith
  have := hr.1 (2 * n) h2
  have e : (((2 * n : ℤ) : ℚ)) / 2 = n := by
    push_cast
    ring
  rwa [e] at this

theorem round_between (round : ℚ → Num) (hr : RoundsLikeDouble round) (lo hi : ℤ)
    (hlo : |lo| ≤ 2 ^ 52) (hhi : |hi| ≤ 2 ^ 52) (q : ℚ) (h1 : (lo : ℚ) ≤ q) (h2 : q ≤ hi) :
    ∃ r : ℚ, round q = Num.fin r ∧ (lo : ℚ) ≤ r ∧ r ≤ hi := by
  have hloq : |(lo : ℚ)| ≤ 2 ^ 53 := by
    have : |(lo : ℚ)| ≤ 2 ^ 52 := by exact_mod_cast hlo
    linarith [show (2 : ℚ) ^ 52 ≤ 2 ^ 53 by norm_num]
  have hhiq : |(hi : ℚ)| ≤ 2 ^ 53 := by
    have : |(hi : ℚ)| ≤ 2 ^ 52 := by exact_mod_cast hhi
    linarith [show (2 : ℚ) ^ 52 ≤ 2 ^ 53 by norm_num]
  have hq : |q| ≤ 2 ^ 53 := by
    rw [abs_le] at hloq hhiq ⊢
    exact ⟨by linarith, by linarith⟩
  obtain ⟨ra, rb, ea, eb, hab⟩ := hr.2 lo q hloq hq h1
  obtain ⟨rc, rd, ec, ed, hcd⟩ := hr.2 q hi hq hhiq h2
  rw [round_int round hr lo hlo] at ea
  rw [round_int round hr hi hhi] at ed
  rw [eb] at ec
  cases ea
  cases ed
  cases ec
  exact ⟨rb, eb, hab, hcd⟩

theorem x_attribute_between (h : Host) (hr : RoundsLikeDouble h.round) (k : Nat) (hk : k < 3)
    (j : ℚ) (hj : 0 ≤ j ∧ j < 15) :
    ∃ xattr : ℚ,
      Num.sub h (Num.add h (Num.fin (slot k)) (Num.fin j)) (Num.fin 1) = Num.fin xattr ∧
        -1 ≤ xattr - slot k ∧ xattr - slot k ≤ 14 := by
  have hslot : slot k = ((267 + 227 * k : ℕ) : ℤ) := by
    unfold slot
    norm_num [margin, width]
    ring
  have hband : |((267 + 227 * k : ℕ) : ℤ)| ≤ 2 ^ 40 := by
    rw [abs_of_nonneg (by positivity)]
    have : 267 + 227 * k ≤ 1000 := by omega
    exact_mod_cast le_trans this (by norm_num)
  obtain ⟨r1, e1, l1, u1⟩ := round_between h.round hr ((267 + 227 * k : ℕ) : ℤ)
    (((267 + 227 * k : ℕ) : ℤ) + 15)
    (le_trans hband (by norm_num))
    (by
      rw [abs_le] at hband ⊢
      constructor <;> linarith [hband.1, hband.2])
    (slot k + j) (by rw [hslot]; linarith [hj.1])
    (by rw [hslot]; push_cast; linarith [hj.2])
  obtain ⟨r2, e2, l2, u2⟩ := round_between h.round hr (((267 + 227 * k : ℕ) : ℤ) - 1)
    (((267 + 227 * k : ℕ) : ℤ) + 14)
    (by
      rw [abs_le] at hband ⊢
      constructor <;> linarith [hband.1, hband.2])
    (by
      rw [abs_le] at hband ⊢
      constructor <;> linarith [hband.1, hband.2])
    (r1 - 1) (by push_cast at l1 ⊢; linarith) (by push_cast at u1 ⊢; linarith)
  refine ⟨r2, ?_, ?_, ?_⟩
  · simp only [Num.add, e1, Num.sub, e2]
  · rw [hslot]
    push_cast at l2 ⊢
    linarith
  · rw [hslot]
    push_cast at u2 ⊢
    linarith

theorem exactHost_rounds : RoundsLikeDouble exactHost.round :=
  ⟨fun _ _ => rfl, fun a b _ _ hab => ⟨a, b, rfl, rfl, hab⟩⟩

/-- C6, counterexample: with one row and the jitter draw 0, which is in
`[0, 15)`, the `x` attribute of the mark is 266 and the band position 267,
whatever the rounding of doubles is, so the offset is -1, not in
`[0, 15)`. -/
theorem offset_not_within_0_15 :
    ((0 : ℚ) ≤ (fun _ : Nat => (0 : ℚ)) 0 ∧ (fun _ : Nat => (0 : ℚ)) 0 < 15) ∧
      RoundsLikeDouble exactHost.round ∧
      ¬ OffsetWithin exactHost 0 15 [⟨"setosa", "3"⟩] (fun _ => 0) 0 ∧
      ∀ h : Host, RoundsLikeDouble h.round →
        ¬ OffsetWithin h 0 15 [⟨"setosa", "3"⟩] (fun _ => 0) 0 := by
  have key : ∀ h : Host, RoundsLikeDouble h.round →
      ¬ OffsetWithin h 0 15 [⟨"setosa", "3"⟩] (fun _ => 0) 0 := by
    rintro h hr ⟨d, m, band, xattr, hd, hm, hb, hx, hlo, -⟩
    rw [marks_getElem? h _ _ 0 d hd] at hm
    cases hm
    have hs := x_apply_of_mem [⟨"setosa", "3"⟩] d.species (mem_of_getElem? _ 0 d hd)
    rw [hs] at hb
    cases hb
    obtain ⟨r2, e2, l2, u2⟩ := round_between h.round hr 267 267 (by norm_num) (by norm_num)
      (slot (firstSeenRank [⟨"setosa", "3"⟩] d.species % 3) + 0)
      (by
        have h3 : firstSeenRank [⟨"setosa", "3"⟩] d.species % 3 = 0 := by
          simp at hd
          subst hd
          decide
        rw [h3]
        norm_num [slot, margin, width])
      (by
        have h3 : firstSeenRank [⟨"setosa", "3"⟩] d.species % 3 = 0 := by
          simp at hd
          subst hd
          decide
        rw [h3]
        norm_num [slot, margin, width])
    have h3 : firstSeenRank [⟨"setosa", "3"⟩] d.species % 3 = 0 := by
      simp at hd
      subst hd
      decide
    have er2 : r2 = 267 := le_antisymm (by exact_mod_cast u2) (by exact_mod_cast l2)
    subst er2
    have e3 := round_int h.round hr 266 (by norm_num)
    simp only [hs, Num.add, e2, Num.sub] at hx
    have e4 : h.round (267 - 1) = Num.fin 266 := by
      have : ((267 : ℚ) - 1) = ((266 : ℤ) : ℚ) := by norm_num
      rw [this]
      exact e3
    rw [e4] at hx
    cases hx
    rw [h3] at hlo
    norm_num [slot, margin, width] at hlo
  exact ⟨⟨le_refl _, by norm_num⟩, exactHost_rounds, key exactHost exactHost_rounds, key⟩

/-- C6, amended: for every row of the data and every jitter draw `j` with
`0 ≤ j < 15`, the `x` attribute of the row's mark is `x(species) + j - 1`
computed in doubles, a finite number, and the `x` attribute minus
`x(species)` lies in `[-1, 14]`. -/
theorem offset_between_neg1_and_14 (h : Host) (hr : RoundsLikeDouble h.round)
    (data : List Row) (jitter : Nat → ℚ) (i : Nat) (hi : i < data.length)
    (hj : 0 ≤ jitter i ∧ jitter i < 15) :
    ∃ (d : Row) (m : Mark) (band xattr : ℚ),
      data[i]? = some d ∧ (marks h data jitter)[i]? = some m ∧
        (x data).apply d.species = some band ∧
        m.x = Num.sub h (Num.add h (Num.fin band) (Num.fin (jitter i))) (Num.fin 1) ∧
        m.x = Num.fin xattr ∧ -1 ≤ xattr - band ∧ xattr - band ≤ 14 := by
  have hd : data[i]? = some data[i] := List.getElem?_eq_getElem hi
  have hb := x_apply_of_mem data _ (mem_of_getElem? data i _ hd)
  obtain ⟨xattr, hx, hlo, hhi⟩ := x_attribute_between h hr
    (firstSeenRank data data[i].species % 3) (Nat.mod_lt _ (by norm_num)) (jitter i) hj
  refine ⟨data[i], _, _, xattr, hd, marks_getElem? h data jitter i _ hd, hb, ?_, ?_, hlo, hhi⟩
  · simp only [hb]
  · simp only [hb]
    exact hx

theorem offset_between_neg1_and_14_witness :
    RoundsLikeDouble exactHost.round ∧ 0 < [(⟨"setosa", "3"⟩ : Row)].length ∧
      ((0 : ℚ) ≤ (fun _ : Nat => (7 : ℚ)) 0 ∧ (fun _ : Nat => (7 : ℚ)) 0 < 15) ∧
      ∃ (d : Row) (m : Mark) (band xattr : ℚ),
        [(⟨"setosa", "3"⟩ : Row)][0]? = some d ∧
          (marks exactHost [⟨"setosa", "3"⟩] (fun _ => 7))[0]? = some m ∧
          (x [⟨"setosa", "3"⟩]).apply d.species = some band ∧
          m.x = Num.sub exactHost
            (Num.add exactHost (Num.fin band) (Num.fin ((fun _ : Nat => (7 : ℚ)) 0)))
            (Num.fin 1) ∧
          m.x = Num.fin xattr ∧ -1 ≤ xattr - band ∧ xattr - band ≤ 14 :=
  ⟨exactHost_rounds, by simp, by norm_num,
    offset_between_neg1_and_14 exactHost exactHost_rounds [⟨"setosa", "3"⟩] (fun _ => 7) 0
      (by simp) (by norm_num)⟩

/-- C7: two runs on the same data with any two sequences of jitter draws
give one mark per row, in the order of the rows; for every row the band
position `x(species)`, the `y` attribute `y(sepalWidth) - 7.5` and the
fill `color(species)` are the same in both runs, and the `x` attributes
are the band position plus the run's own jitter draw minus 1. -/
theorem marks_deterministic_modulo_jitter (h : Host) (data : List Row) (j1 j2 : Nat → ℚ) :
    (marks h data j1).length = data.length ∧ (marks h data j2).length = data.length ∧
      ∀ (i : Nat) (d : Row), data[i]? = some d →
        ∃ (m1 m2 : Mark) (band : ℚ),
          (marks h data j1)[i]? = some m1 ∧ (marks h data j2)[i]? = some m2 ∧
            (x data).apply d.species = some band ∧
            m1.x = Num.sub h (Num.add h (Num.fin band) (Num.fin (j1 i))) (Num.fin 1) ∧
            m2.x = Num.sub h (Num.add h (Num.fin band) (Num.fin (j2 i))) (Num.fin 1) ∧
            m1.y =
              (match y h data d.sepalWidth with
              | some v => Num.sub h v (Num.fin 7.5)
              | none => Num.nan) ∧
            m2.y = m1.y ∧
            m1.fill = (color data).apply d.species ∧ m2.fill = m1.fill := by
  refine ⟨by simp [marks], by simp [marks], fun i d hd => ?_⟩
  have hb := x_apply_of_mem data _ (mem_of_getElem? data i d hd)
  refine ⟨_, _, _, marks_getElem? h data j1 i d hd, marks_getElem? h data j2 i d hd, hb, ?_, ?_,
    rfl, rfl, rfl, rfl⟩
  · simp only [hb]
  · simp only [hb]

theorem marks_deterministic_modulo_jitter_witness :
    [(⟨"setosa", "3"⟩ : Row)][0]? = some ⟨"setosa", "3"⟩ ∧
      ∃ (m1 m2 : Mark) (band : ℚ),
        (marks exactHost [⟨"setosa", "3"⟩] (fun _ => 2))[0]? = some m1 ∧
          (marks exactHost [⟨"setosa", "3"⟩] (fun _ => 11))[0]? = some m2 ∧
          (x [⟨"setosa", "3"⟩]).apply (⟨"setosa", "3"⟩ : Row).species = some band ∧
          m1.x = Num.sub exactHost
            (Num.add exactHost (Num.fin band) (Num.fin ((fun _ : Nat => (2 : ℚ)) 0)))
            (Num.fin 1) ∧
          m2.x = Num.sub exactHost
            (Num.add exactHost (Num.fin band) (Num.fin ((fun _ : Nat => (11 : ℚ)) 0)))
            (Num.fin 1) ∧
          m1.y =
            (match y exactHost [⟨"setosa", "3"⟩] (⟨"setosa", "3"⟩ : Row).sepalWidth with
            | some v => Num.sub exactHost v (Num.fin 7.5)
            | none => Num.nan) ∧
          m2.y = m1.y ∧
          m1.fill = (color [⟨"setosa", "3"⟩]).apply (⟨"setosa", "3"⟩ : Row).species ∧
          m2.fill = m1.fill :=
  ⟨rfl, (marks_deterministic_modulo_jitter exactHost [⟨"setosa", "3"⟩] (fun _ => 2)
    (fun _ => 11)).2.2 0 ⟨"setosa", "3"⟩ rfl⟩

theorem ltUnits_irrefl (l : List Nat) : ltUnits l l = false := by
  induction l with
  | nil => rfl
  | cons a l ih => simp [ltUnits, ih]

theorem extent_foldl_same (s : String) (vs : List String) (hvs : ∀ v ∈ vs, v = s) :
    vs.foldl
        (fun acc v =>
          match acc with
          | none => some (v, v)
          | some (mn, mx) => some (if strLt v mn then v else mn, if strLt mx v then v else mx))
        (some (s, s)) = some (s, s) := by
  induction vs with
  | nil => rfl
  | cons v vs ih =>
    have hv : v = s := hvs v (List.mem_cons_self _ _)
    subst hv
    rw [List.foldl_cons]
    have hl : strLt v v = false := ltUnits_irrefl _
    simp only [hl, Bool.false_eq_true, if_false]
    exact ih (fun w hw => hvs w (List.mem_cons_of_mem _ hw))

theorem extent_same (s : String) (vs : List String) (hne : vs ≠ [])
    (hvs : ∀ v ∈ vs, v = s) : extent vs = some (s, s) := by
  cases vs with
  | nil => exact absurd rfl hne
  | cons v vs =>
    have hv : v = s := hvs v (List.mem_cons_self _ _)
    subst hv
    unfold extent
    rw [List.foldl_cons]
    exact extent_foldl_same v vs (fun w hw => hvs w (List.mem_cons_of_mem _ hw))

theorem nice_degenerate (h : Host) (ht : TickIncrementDegenerate h.tickIncrement) (v : ℚ) :
    nice h (Num.fin v, Num.fin v) = (Num.fin v, Num.fin v) := by
  have h1 := ht.1 v
  have h2 := ht.2
  have hstart : Num.div h (Num.mul h (Num.fin v) Num.negInf).ceil Num.negInf = Num.nan := by
    by_cases hv : v = 0
    · simp [Num.mul, hv, Num.ceil, Num.div]
    · by_cases hp : 0 < -v
      · simp [Num.mul, hv, Num.infOfSign, hp, Num.ceil, Num.div]
      · simp [Num.mul, hv, Num.infOfSign, hp, Num.ceil, Num.div]
  have hstop : Num.div h (Num.mul h (Num.fin v) Num.negInf).floor Num.negInf = Num.nan := by
    by_cases hv : v = 0
    · simp [Num.mul, hv, Num.floor, Num.div]
    · by_cases hp : 0 < -v
      · simp [Num.mul, hv, Num.infOfSign, hp, Num.floor, Num.div]
      · simp [Num.mul, hv, Num.infOfSign, hp, Num.floor, Num.div]
  have hloop : niceLoop h 10 (Num.fin v) (Num.fin v) none = none := by
    simp [niceLoop, h1, h2, hstart, hstop, Num.lt]
  simp [nice, Num.lt, hloop]

theorem yDomain_same (h : Host) (ht : TickIncrementDegenerate h.tickIncrement)
    (data : List Row) (hne : data ≠ []) (s : String) (v : ℚ)
    (hs : ∀ d ∈ data, d.sepalWidth = s) (hv : h.toNumber s = Num.fin v) :
    yDomain h data = (Num.fin v, Num.fin v) := by
  have he : extent (data.map fun d => d.sepalWidth) = some (s, s) := by
    apply extent_same
    · simpa using hne
    · intro w hw
      obtain ⟨d, hd, e⟩ := List.mem_map.mp hw
      rw [← e]
      exact hs d hd
  simp only [yDomain, he, hv]
  exact nice_degenerate h ht v

theorem scaleLinearCall_first (h : Host) (hr : RoundsLikeDouble h.round) (d0 d1 b : ℚ)
    (hb : h.round (max d0 d1 - min d0 d1) = Num.fin b) (hb0 : b ≠ 0) :
    scaleLinearCall h (Num.fin d0, Num.fin d1) (Num.fin 565, Num.fin 25) (Num.fin d0) =
        Num.fin 565 ∧
      scaleLinearCall h (Num.fin d0, Num.fin d1) (Num.fin 565, Num.fin 25) (Num.fin d1) =
        Num.fin 25 := by
  have r0 : h.round 0 = Num.fin 0 := by simpa using round_int h.round hr 0 (by norm_num)
  have r1 : h.round 1 = Num.fin 1 := by simpa using round_int h.round hr 1 (by norm_num)
  have r565 : h.round 565 = Num.fin 565 := by
    simpa using round_int h.round hr 565 (by norm_num)
  have r25 : h.round 25 = Num.fin 25 := by simpa using round_int h.round hr 25 (by norm_num)
  have hne : d0 ≠ d1 := by
    intro e
    rw [e, max_self, min_self, sub_self, r0] at hb
    cases hb
    exact hb0 rfl
  rcases lt_or_gt_of_ne hne with hlt | hgt
  · rw [max_eq_right (le_of_lt hlt), min_eq_left (le_of_lt hlt)] at hb
    have hnl : ¬ d1 < d0 := not_lt.mpr (le_of_lt hlt)
    constructor
    · simp [scaleLinearCall, Num.lt, hnl, normalize, Num.sub, hb, Num.truthy, hb0, Num.div, r0,
        interpolateNumber, r1, Num.mul, r565, Num.add]
    · simp [scaleLinearCall, Num.lt, hnl, normalize, Num.sub, hb, Num.truthy, hb0, Num.div, r0,
        interpolateNumber, r1, Num.mul, r25, Num.add]
  · rw [max_eq_left (le_of_lt hgt), min_eq_right (le_of_lt hgt)] at hb
    constructor
    · simp [scaleLinearCall, Num.lt, hgt, normalize, Num.sub, hb, Num.truthy, hb0, Num.div, r0,
        interpolateNumber, r1, Num.mul, r565, Num.add]
    · simp [scaleLinearCall, Num.lt, hgt, normalize, Num.sub, hb, Num.truthy, hb0, Num.div, r0,
        interpolateNumber, r1, Num.mul, r25, Num.add]

theorem scaleLinearCall_degenerate (h : Host) (hr : RoundsLikeDouble h.round) (v w : ℚ) :
    scaleLinearCall h (Num.fin v, Num.fin v) (Num.fin 565, Num.fin 25) (Num.fin w) =
      Num.fin 295 := by
  have r0 : h.round 0 = Num.fin 0 := by simpa using round_int h.round hr 0 (by norm_num)
  have rh : h.round (1 - 0.5) = Num.fin 0.5 := by
    have := hr.1 1 (by norm_num)
    norm_num at this ⊢
    exact this
  have ra : h.round (565 * 0.5) = Num.fin (565 / 2) := by
    have := hr.1 565 (by norm_num)
    norm_num at this ⊢
    exact this
  have rb : h.round (25 * 0.5) = Num.fin (25 / 2) := by
    have := hr.1 25 (by norm_num)
    norm_num at this ⊢
    exact this
  have rc : h.round (565 / 2 + 25 / 2) = Num.fin 295 := by
    have := round_int h.round hr 295 (by norm_num)
    norm_num at this ⊢
    exact this
  simp [scaleLinearCall, Num.lt, normalize, Num.sub, r0, Num.truthy, interpolateNumber, rh,
    Num.mul, ra, rb, Num.add, rc]

theorem yRange_eq : yRange = (Num.fin 565, Num.fin 25) := by
  unfold yRange
  norm_num [height, margin]

theorem exactHost_tick : TickIncrementDegenerate exactHost.tickIncrement :=
  ⟨fun v => by simp [exactHost, exactTickIncrement], rfl⟩

theorem exactTick_2_3 :
    exactTickIncrement (Num.fin 2) (Num.fin 3) (Num.fin 10) = Num.fin (-10) := by
  have hlog : Int.log 10 ((3 - 2 : ℚ) / max 0 10) = -1 := by
    have : ((3 - 2 : ℚ) / max 0 10) = (10 : ℚ) ^ (-1 : ℤ) := by norm_num
    rw [this]
    exact Int.log_zpow (by norm_num) _
  unfold exactTickIncrement
  simp only [hlog]
  norm_num

theorem yDomain_exact_2_3 :
    yDomain exactHost [⟨"setosa", "3"⟩, ⟨"versicolor", "2"⟩] = (Num.fin 2, Num.fin 3) := by
  have he : extent ([(⟨"setosa", "3"⟩ : Row), ⟨"versicolor", "2"⟩].map fun d => d.sepalWidth) =
      some ("2", "3") := by decide
  have h2 : exactHost.toNumber "2" = Num.fin 2 := by decide
  have h3 : exactHost.toNumber "3" = Num.fin 3 := by decide
  simp only [yDomain, he, h2, h3]
  have hc : (⌈(2 : ℚ) * -10⌉ : ℤ) = -20 := by
    have : (2 : ℚ) * -10 = ((-20 : ℤ) : ℚ) := by norm_num
    rw [this, Int.ceil_intCast]
  have hf : (⌊(3 : ℚ) * -10⌋ : ℤ) = -30 := by
    have : (3 : ℚ) * -10 = ((-30 : ℤ) : ℚ) := by norm_num
    rw [this, Int.floor_intCast]
  have ht : exactHost.tickIncrement (Num.fin 2) (Num.fin 3) (Num.fin 10) = Num.fin (-10) :=
    exactTick_2_3
  have hr : ∀ q : ℚ, exactHost.round q = Num.fin q := fun _ => rfl
  have hstart : Num.div exactHost (Num.mul exactHost (Num.fin 2) (Num.fin (-10))).ceil
      (Num.fin (-10)) = Num.fin 2 := by
    simp only [Num.mul, hr, Num.ceil, hc, Num.div]
    norm_num
  have hstop : Num.div exactHost (Num.mul exactHost (Num.fin 3) (Num.fin (-10))).floor
      (Num.fin (-10)) = Num.fin 3 := by
    simp only [Num.mul, hr, Num.floor, hf, Num.div]
    norm_num
  have hl1 : Num.lt (Num.fin 0) (Num.fin (-10)) = false := by
    simp [Num.lt]
  have hl2 : Num.lt (Num.fin (-10)) (Num.fin 0) = true := by
    simp [Num.lt]
  have hloop2 : niceLoop exactHost 9 (Num.fin 2) (Num.fin 3) (some (Num.fin (-10))) =
      some (Num.fin 2, Num.fin 3) := by
    rw [niceLoop]
    simp [ht]
  have hloop : niceLoop exactHost 10 (Num.fin 2) (Num.fin 3) none =
      some (Num.fin 2, Num.fin 3) := by
    rw [niceLoop]
    simp only [ht]
    rw [if_neg (by simp), hl1, hl2, hstart, hstop]
    simpa using hloop2
  have hlt : Num.lt (Num.fin 3) (Num.fin 2) = false := by
    norm_num [Num.lt]
  unfold nice
  simp only [hlt, hloop]
  simp

/-- C9, counterexample: with a single row of `sepalWidth` "3", on every
host with the rounding of doubles that reads "3" as 3, the domain of `y`
is `[3, 3]` and `y` maps 3 to 295, the middle of the range, so no domain
`[lo, hi]` of `y` has `lo` mapped to 565 and `hi` to 25; the host with
exact arithmetic is one such host.  Besides, the extent of the strings
"9", "10", "100" is taken in string order: its ends are "10" and "9". -/
theorem y_single_row_midpoint :
    (RoundsLikeDouble exactHost.round ∧ TickIncrementDegenerate exactHost.tickIncrement ∧
        exactHost.toNumber "3" = Num.fin 3) ∧
      ¬ EndsAtRange exactHost [⟨"setosa", "3"⟩] ∧
      (∀ h : Host, RoundsLikeDouble h.round → TickIncrementDegenerate h.tickIncrement →
        h.toNumber "3" = Num.fin 3 →
        yDomain h [⟨"setosa", "3"⟩] = (Num.fin 3, Num.fin 3) ∧
          y h [⟨"setosa", "3"⟩] "3" = some (Num.fin 295) ∧
          ¬ EndsAtRange h [⟨"setosa", "3"⟩]) ∧
      extent ["9", "10", "100"] = some ("10", "9") := by
  have key : ∀ h : Host, RoundsLikeDouble h.round → TickIncrementDegenerate h.tickIncrement →
      h.toNumber "3" = Num.fin 3 →
      yDomain h [⟨"setosa", "3"⟩] = (Num.fin 3, Num.fin 3) ∧
        y h [⟨"setosa", "3"⟩] "3" = some (Num.fin 295) ∧
        ¬ EndsAtRange h [⟨"setosa", "3"⟩] := by
    intro h hr ht h3
    have hd : yDomain h [⟨"setosa", "3"⟩] = (Num.fin 3, Num.fin 3) :=
      yDomain_same h ht _ (by simp) "3" 3 (by simp) h3
    have hy : ∀ w : ℚ, yNum h [⟨"setosa", "3"⟩] (Num.fin w) = some (Num.fin 295) := by
      intro w
      simp only [yNum, hd, yRange_eq, scaleLinearCall_degenerate h hr]
      simp
    refine ⟨hd, ?_, ?_⟩
    · simp only [y, h3]
      exact hy 3
    · rintro ⟨lo, hi, -, hlo, -⟩
      rw [hy lo] at hlo
      norm_num at hlo
  have h3 : exactHost.toNumber "3" = Num.fin 3 := by decide
  exact ⟨⟨exactHost_rounds, exactHost_tick, h3⟩,
    (key exactHost exactHost_rounds exactHost_tick h3).2.2, key, by decide⟩

/-- C9, amended: when the domain of `y` is two finite numbers `d0` and
`d1` whose difference is a finite double other than zero, `y` maps `d0` to
`height - margin.bottom = 565` and `d1` to `margin.top = 25`; when
`d0 = d1`, `y` maps it to 295, and this is the case of a non-empty data
whose rows all have the same `sepalWidth`.  Nothing is said on how the
domain lies to the smallest and the largest `sepalWidth`. -/
theorem y_maps_domain_ends (h : Host) (hr : RoundsLikeDouble h.round) (data : List Row)
    (d0 d1 : ℚ) (hdom : yDomain h data = (Num.fin d0, Num.fin d1)) :
    height - margin.bottom = 565 ∧ margin.top = 25 ∧
      (∀ b : ℚ, h.round (max d0 d1 - min d0 d1) = Num.fin b → b ≠ 0 →
        yNum h data (Num.fin d0) = some (Num.fin 565) ∧
          yNum h data (Num.fin d1) = some (Num.fin 25)) ∧
      (d0 = d1 → yNum h data (Num.fin d0) = some (Num.fin 295)) ∧
      (∀ (s : String) (v : ℚ), TickIncrementDegenerate h.tickIncrement → data ≠ [] →
        (∀ d ∈ data, d.sepalWidth = s) → h.toNumber s = Num.fin v → d0 = v ∧ d1 = v) := by
  refine ⟨by norm_num [height, margin], by norm_num [margin], ?_, ?_, ?_⟩
  · intro b hb hb0
    have he := scaleLinearCall_first h hr d0 d1 b hb hb0
    simp only [yNum, hdom, yRange_eq, he.1, he.2]
    simp
  · intro e
    subst e
    simp only [yNum, hdom, yRange_eq, scaleLinearCall_degenerate h hr]
    simp
  · intro s v ht hne hs hv
    have := yDomain_same h ht data hne s v hs hv
    rw [hdom] at this
    simp only [Prod.mk.injEq, Num.fin.injEq] at this
    exact this

theorem y_maps_domain_ends_witness :
    RoundsLikeDouble exactHost.round ∧
      yDomain exactHost [⟨"setosa", "3"⟩, ⟨"versicolor", "2"⟩] = (Num.fin 2, Num.fin 3) ∧
      exactHost.round (max 2 3 - min 2 3) = Num.fin 1 ∧ (1 : ℚ) ≠ 0 ∧
      yNum exactHost [⟨"setosa", "3"⟩, ⟨"versicolor", "2"⟩] (Num.fin 2) = some (Num.fin 565) ∧
      yNum exactHost [⟨"setosa", "3"⟩, ⟨"versicolor", "2"⟩] (Num.fin 3) = some (Num.fin 25) :=
  ⟨exactHost_rounds, yDomain_exact_2_3, by norm_num [exactHost], by norm_num,
    (y_maps_domain_ends exactHost exactHost_rounds [⟨"setosa", "3"⟩, ⟨"versicolor", "2"⟩] 2 3
      yDomain_exact_2_3).2.2.1 1 (by norm_num [exactHost]) (by norm_num)⟩

end Stripplot
